import Mathlib

set_option maxRecDepth 10000

/- Verification development for the stan/lilyparse music-notation core:
   exact rational durations, rhythmic values, the recursive column sum type
   with beam/tuplet validation, deep copy, duration accumulation, the
   lilypond text grammar, and the debug writer. -/

namespace stan

/-- Modulus of the wrapping 32-bit unsigned arithmetic used by
`rational<std::uint32_t>`, the base of `stan::duration` (duration.hpp). -/
def W32 : Nat := 4294967296

/-- `stan::duration` (duration.hpp): a fraction of a whole note with
unsigned 32-bit numerator and denominator. -/
structure duration where
  num : Nat
  den : Nat
deriving DecidableEq

/-- `duration::operator+` (duration.hpp): gcd common-denominator addition.
In the source, with `integer` = `std::uint32_t` (wrapping products):
`g = compute_gcd(den(), d2.den()); d = (den() * d2.den()) / g;`
`n = (num() * d) / den() + (d2.num() * d) / d2.den(); return {n, d}`. -/
def duration.add (a b : duration) : duration :=
  ⟨(a.num * (a.den * b.den % W32 / Nat.gcd a.den b.den) % W32 / a.den
      + b.num * (a.den * b.den % W32 / Nat.gcd a.den b.den) % W32 / b.den) % W32,
    a.den * b.den % W32 / Nat.gcd a.den b.den⟩

/-- `duration::zero()` = 0/1 (duration.hpp). -/
def duration.zero : duration := ⟨0, 1⟩

/-- Possible outcomes of one run of `duration::operator+` including its
runtime checks: the `assert(d2.den() > 0)` at entry, the division by the
left denominator (a fault when it is zero), and the final construction of
the result. -/
inductive addResult where
  | assertFail
  | divByZero
  | ctorFail
  | ok (r : duration)
deriving DecidableEq

/-- `duration::operator+` with its failure modes made explicit: the source
asserts `d2.den() > 0` first; dividing by a zero left denominator faults;
Modelled from the spec: the rational constructor used by `return {n, d}`
rejects a zero denominator (rational.hpp is not under src/; spec section 4.1
"construct(num, den) fails if den == 0"). -/
def duration.addChecked (a b : duration) : addResult :=
  if b.den = 0 then .assertFail
  else if a.den = 0 then .divByZero
  else if (duration.add a b).den = 0 then .ctorFail
  else .ok (duration.add a b)

/-- Modelled from the spec: rational equality compares by cross-multiplication
(section 4.1; rational.hpp is not under src/), products taken in the wrapping
32-bit unsigned arithmetic of the representation. -/
def duration.eqb (a b : duration) : Bool :=
  a.num * b.den % W32 == b.num * a.den % W32

/-- Modelled from the spec: rational `<` compares by cross-multiplication
(section 4.1; rational.hpp is not under src/). -/
def duration.ltb (a b : duration) : Bool :=
  decide (a.num * b.den % W32 < b.num * a.den % W32)

/-- `stan::pitchclass`: the 35 enumerated pitch spellings, five accidental
variants for each of the seven letters (pitch model; used by the symbol
table in the grammar source). -/
inductive pitchclass where
  | aff | af | a | as | ass
  | bff | bf | b | bs | bss
  | cff | cf | c | cs | css
  | dff | df | d | ds | dss
  | eff | ef | e | es | ess
  | fff | ff | f | fs | fss
  | gff | gf | g | gs | gss
deriving DecidableEq

/-- Modelled from the spec: `stan::pitch` is a pitch class plus an octave
(section 3; pitch.hpp is not under src/).  The octave is the small integer
stored by the grammar's semantic actions (4 + raises or 4 - lowers). -/
structure pitch where
  m_pitchclass : pitchclass
  m_octave : Nat
deriving DecidableEq

/-- Modelled from the spec: `stan::value` keeps the exact whole-note fraction
together with the dot count used for reprinting (sections 3 and 4.3;
value.hpp is not under src/).  An undotted base value 1/b is `⟨1, b, 0⟩`. -/
structure value where
  num : Nat
  den : Nat
  dots : Nat
deriving DecidableEq

def value.whole : value := ⟨1, 1, 0⟩

def value.half : value := ⟨1, 2, 0⟩

def value.quarter : value := ⟨1, 4, 0⟩

def value.eighth : value := ⟨1, 8, 0⟩

def value.sixteenth : value := ⟨1, 16, 0⟩

def value.thirtysecond : value := ⟨1, 32, 0⟩

def value.sixtyfourth : value := ⟨1, 64, 0⟩

/-- Modelled from the spec: `stan::dot` extends a value by one half of its
undotted duration per dot (one dot = 1.5x, two dots = 1.75x; section 3) and
increments the dot count: num/den with d dots becomes (2num+1)/(2den). -/
def dot (v : value) : value := ⟨2 * v.num + 1, 2 * v.den, v.dots + 1⟩

/-- Modelled from the spec: `value::all`, the complete table of the 21 legal
(base, dots) pairs, base-major from whole to sixty-fourth with 0, 1, 2 dots
(section 4.3; the exact enumeration order is left open by section 9). -/
def value.all : List value :=
  [value.whole, dot value.whole, dot (dot value.whole),
   value.half, dot value.half, dot (dot value.half),
   value.quarter, dot value.quarter, dot (dot value.quarter),
   value.eighth, dot value.eighth, dot (dot value.eighth),
   value.sixteenth, dot value.sixteenth, dot (dot value.sixteenth),
   value.thirtysecond, dot value.thirtysecond, dot (dot value.thirtysecond),
   value.sixtyfourth, dot value.sixtyfourth, dot (dot value.sixtyfourth)]

/-- Modelled from the spec: `static_cast<duration>(value)` is the exact
fraction the value stores (section 4.3). -/
def value.toDuration (v : value) : duration := ⟨v.num, v.den⟩

/-- `v > value::quarter()` as used by `beam::validate` (column.cpp):
value order is the order of the converted durations. -/
def value.gtQuarter (v : value) : Bool :=
  duration.ltb value.quarter.toDuration v.toDuration

/-- `stan::column` (column.hpp, reconstructed from its uses in column.cpp,
copy.cpp and the grammar source): the closed recursive sum of rest, note,
chord, beam and tuplet.  Field names follow the source members. -/
inductive column where
  | rest (m_value : value)
  | note (m_value : value) (m_pitch : pitch)
  | chord (m_value : value) (m_pitches : List pitch)
  | beam (m_elements : List column)
  | tuplet (m_value : value) (m_elements : List column)

/-- The error kinds raised by validation (exception types
`invalid_value`, `invalid_beam`, `invalid_tuplet`). -/
inductive err where
  | invalid_value (msg : String)
  | invalid_beam (msg : String)
  | invalid_tuplet
deriving DecidableEq

/-- `tuplet::validate` (column.cpp lines 119-124): an `invalid_value` error
exactly when the element sequence has fewer than two elements. -/
def tuplet.validate (m_elements : List column) : Option err :=
  if m_elements.length < 2 then
    some (err.invalid_value ("tuplet must contain at least two elements"))
  else none

/-- The `is_valid` visitor inside `beam::validate` (column.cpp lines 128-174):
per-member violation message, `none` when the member is acceptable.
`m_numelements` is the total member count of the beam being validated. -/
def is_valid (m_numelements : Nat) : column → Option String
  | .rest _ => some ("cannot contain rests")
  | .note v _ =>
    if value.gtQuarter v then some ("cannot hold whole or half notes")
    else if m_numelements < 2 then some ("must contain at least two values")
    else none
  | .chord v _ =>
    if value.gtQuarter v then some ("cannot hold whole or half notes")
    else if m_numelements < 2 then some ("must contain at least two values")
    else none
  | .beam _ =>
    if m_numelements < 2 then some ("nested beams must contain at least two values")
    else none
  | .tuplet v _ =>
    if value.gtQuarter v then some ("cannot hold whole or half note tuplets")
    else none

/-- `beam::validate` (column.cpp lines 126-185): visit the members in order
and stop at the first violation, yielding its message (the argument of the
thrown `invalid_beam`); `none` when every member passes. -/
def beam.validateMsg (m_elements : List column) : Option String :=
  m_elements.findSome? (is_valid m_elements.length)

/-- `beam::validate` packaged as the raised error: the first violation's
message wrapped in `invalid_beam`. -/
def beam.validate (m_elements : List column) : Option err :=
  (beam.validateMsg m_elements).map err.invalid_beam

/-- Spec-side restatement of the beam membership rules, following the words
of the claim and spec section 4.4, for comparison with `beam::validate`:
a Rest member is never acceptable; a Note or Chord member needs value at
most a quarter and at least two total members; a nested Beam member needs
at least two total members; a Tuplet member needs value at most a quarter. -/
def beam_member_ok_spec (n : Nat) : column → Prop
  | .rest _ => False
  | .note v _ => value.gtQuarter v = false ∧ 2 ≤ n
  | .chord v _ => value.gtQuarter v = false ∧ 2 ≤ n
  | .beam _ => 2 ≤ n
  | .tuplet v _ => value.gtQuarter v = false

/-- The outer duration computed by `tuplet::scale` (column.cpp line 102):
`duration(inner.num() * den, inner.den() * num)`, wrapping products. -/
def outer_duration (num den : Nat) (inner : duration) : duration :=
  ⟨inner.num * den % W32, inner.den * num % W32⟩

/-- Possible outcomes of one run of `tuplet::scale`: constructing the outer
duration can fail before the scan, and the scan either returns the first
matching value or throws `invalid_tuplet`. -/
inductive scaleResult where
  | ctorFail
  | invalidTuplet
  | ok (v : value)
deriving DecidableEq

/-- `tuplet::scale(num, den, inner)` (column.cpp lines 100-112): construct
the outer duration `duration(inner.num()*den, inner.den()*num)`, then
linearly scan `value::all` for the first entry whose converted duration
equals it exactly, throwing `invalid_tuplet` when no entry matches.
Modelled from the spec: the rational constructor building the outer
duration rejects a zero denominator — including one wrapped to zero by the
32-bit products — before any scan happens (rational.hpp is not under src/;
spec section 4.1 "construct(num, den) fails if den == 0"). -/
def tuplet.scale (num den : Nat) (inner : duration) : scaleResult :=
  if inner.den * num % W32 = 0 then .ctorFail
  else
    match value.all.find? (fun v => duration.eqb (outer_duration num den inner) v.toDuration) with
    | some v => .ok v
    | none => .invalidTuplet

/-- The `value` overload of `tuplet::scale` (column.cpp lines 114-117):
convert the inner value to a duration first. -/
def tuplet.scaleValue (num den : Nat) (inner : value) : scaleResult :=
  tuplet.scale num den inner.toDuration

mutual

/-- `copy_variant::operator()` (column.cpp lines 62-93) and the identical
`copy_visitor::operator()` (copy.cpp): rest, note and chord copy by value;
beam and tuplet rebuild from a freshly copied element sequence. -/
def copy_variant : column → column
  | .rest v => .rest v
  | .note v p => .note v p
  | .chord v ps => .chord v ps
  | .beam es => .beam (copy_elements es)
  | .tuplet v es => .tuplet v (copy_elements es)
termination_by c => sizeOf c

/-- The element-sequence transform inside the beam/tuplet cases of the copy
visitors: each child is copied independently into a new sequence. -/
def copy_elements : List column → List column
  | [] => []
  | c :: cs => copy_variant c :: copy_elements cs
termination_by cs => sizeOf cs

end

mutual

/-- The `get_duration` visitor (column.cpp lines 40-59): a rest, note, chord
or tuplet contributes its own stored value's duration; a beam accumulates
its children's durations with `duration::operator+` starting from zero. -/
def get_duration : column → duration
  | .rest v => v.toDuration
  | .note v _ => v.toDuration
  | .chord v _ => v.toDuration
  | .beam es => accumulate_duration duration.zero es
  | .tuplet v _ => v.toDuration
termination_by c => sizeOf c

/-- The `std::accumulate` loop of the beam case of `get_duration` together
with `operator+(duration, column)` (column.cpp lines 45-59). -/
def accumulate_duration : duration → List column → duration
  | acc, [] => acc
  | acc, c :: cs => accumulate_duration (acc.add (get_duration c)) cs
termination_by _ cs => sizeOf cs

end

mutual

/-- Every construction-time invariant of section 4.4 holds throughout the
tree: each beam passes `beam::validate` and each tuplet passes
`tuplet::validate`, recursively. -/
def columnValid : column → Bool
  | .rest _ => true
  | .note _ _ => true
  | .chord _ _ => true
  | .beam es => (beam.validateMsg es).isNone && columnsValid es
  | .tuplet _ es => (tuplet.validate es).isNone && columnsValid es
termination_by c => sizeOf c

/-- `columnValid` over an element sequence. -/
def columnsValid : List column → Bool
  | [] => true
  | c :: cs => columnValid c && columnsValid cs
termination_by cs => sizeOf cs

end

/-- The apostrophe character, the grammar's octave raise mark. -/
def quoteChar : Char := Char.ofNat 39

/-- Whitespace recognised by the `x3::space` skipper used by
`phrase_parse` (grammar source line 422): space, tab, newline, carriage
return, vertical tab, form feed. -/
def isSpaceChar (c : Char) : Bool :=
  c == ' ' || c == Char.ofNat 9 || c == Char.ofNat 10
    || c == Char.ofNat 13 || c == Char.ofNat 11 || c == Char.ofNat 12

/-- Drop leading skipper whitespace, as every primitive parser does under a
skipper context. -/
def skipWs : List Char → List Char
  | [] => []
  | c :: cs => if isSpaceChar c then skipWs cs else c :: cs

/-- A literal character parser (`x3::lit` / `char_`): pre-skip whitespace,
then consume the character. -/
def matchChar (ch : Char) (s : List Char) : Option (List Char) :=
  match skipWs s with
  | [] => none
  | c :: cs => if c == ch then some cs else none

/-- Match a fixed key at the head of the input, returning the remainder. -/
def keyRest : List Char → List Char → Option (List Char)
  | [], s => some s
  | _ :: _, [] => none
  | k :: ks, c :: cs => if c == k then keyRest ks cs else none

/-- An `x3::symbols` table lookup: pre-skip whitespace, then take the
longest table key matching a prefix of the input (symbol tables are tries,
so the longest entry wins). -/
def symFind {α : Type} (tbl : List (List Char × α)) (s0 : List Char) : Option (α × List Char) :=
  let s := skipWs s0
  let best := tbl.foldl
    (fun acc kv =>
      match keyRest kv.1 s with
      | none => acc
      | some r =>
        match acc with
        | none => some (kv.1.length, kv.2, r)
        | some (len, v', r') =>
          if len < kv.1.length then some (kv.1.length, kv.2, r) else some (len, v', r'))
    none
  best.map (fun t => (t.2.1, t.2.2))

/-- The `pitchclass_` symbol table of the grammar source (lines 207-225):
the 35 spellings in source order. -/
def pitchclass_table : List (List Char × pitchclass) :=
  [(['a', 'f', 'f'], .aff), (['a', 'f'], .af), (['a'], .a), (['a', 's'], .as), (['a', 's', 's'], .ass),
   (['b', 'f', 'f'], .bff), (['b', 'f'], .bf), (['b'], .b), (['b', 's'], .bs), (['b', 's', 's'], .bss),
   (['c', 'f', 'f'], .cff), (['c', 'f'], .cf), (['c'], .c), (['c', 's'], .cs), (['c', 's', 's'], .css),
   (['d', 'f', 'f'], .dff), (['d', 'f'], .df), (['d'], .d), (['d', 's'], .ds), (['d', 's', 's'], .dss),
   (['e', 'f', 'f'], .eff), (['e', 'f'], .ef), (['e'], .e), (['e', 's'], .es), (['e', 's', 's'], .ess),
   (['f', 'f', 'f'], .fff), (['f', 'f'], .ff), (['f'], .f), (['f', 's'], .fs), (['f', 's', 's'], .fss),
   (['g', 'f', 'f'], .gff), (['g', 'f'], .gf), (['g'], .g), (['g', 's'], .gs), (['g', 's', 's'], .gss)]

/-- The `basevalue_` symbol table of the grammar source (lines 227-243). -/
def basevalue_table : List (List Char × value) :=
  [(['1'], value.whole), (['2'], value.half), (['4'], value.quarter),
   (['8'], value.eighth), (['1', '6'], value.sixteenth),
   (['3', '2'], value.thirtysecond), (['6', '4'], value.sixtyfourth)]

/-- `x3::repeat(1, n)[char_(ch)]`: count up to `n` occurrences of `ch`, each
preceded by skipper whitespace; returns the count and the remainder. -/
def marks (ch : Char) : Nat → List Char → Nat × List Char
  | 0, s => (0, s)
  | n + 1, s =>
    match matchChar ch s with
    | none => (0, s)
    | some s1 =>
      let r := marks ch n s1
      (r.1 + 1, r.2)

/-- The `poctave` rule (grammar source lines 295-301): one to three raise
marks give octave 4+k, one to four lower marks give 4-k, otherwise 4. -/
def poctave (s : List Char) : Nat × List Char :=
  let q := marks quoteChar 3 s
  if q.1 ≠ 0 then (4 + q.1, q.2)
  else
    let l := marks ',' 4 s
    if l.1 ≠ 0 then (4 - l.1, l.2)
    else (4, s)

/-- The `ppitch` rule (grammar source line 349): a pitch-class token
followed by the octave marks. -/
def ppitch (s : List Char) : Option (pitch × List Char) :=
  match symFind pitchclass_table s with
  | none => none
  | some (pc, s1) =>
    let o := poctave s1
    some (⟨pc, o.1⟩, o.2)

/-- The `pvalue` rule (grammar source line 353): a base-value token followed
by zero, one or two dot suffixes, each applying `stan::dot`. -/
def pvalue (s : List Char) : Option (value × List Char) :=
  match symFind basevalue_table s with
  | none => none
  | some (v0, s1) =>
    match matchChar '.' s1 with
    | none => some (v0, s1)
    | some s2 =>
      match matchChar '.' s2 with
      | none => some (dot v0, s2)
      | some s3 => some (dot (dot v0), s3)

/-- The `prest` rule (grammar source line 347): the letter r followed by a
value, building `stan::rest`. -/
def prest (s : List Char) : Option (value × List Char) :=
  match matchChar 'r' s with
  | none => none
  | some s1 => pvalue s1

/-- The `pnote` rule (grammar source line 348): a pitch followed by a value,
building `stan::note`. -/
def pnote (s : List Char) : Option (value × pitch × List Char) :=
  match ppitch s with
  | none => none
  | some (p, s1) =>
    match pvalue s1 with
    | none => none
    | some (v, s2) => some (v, p, s2)

/-- The one-or-more pitch loop of the `pchord` rule, fueled by the input
length (each iteration consumes at least one character). -/
def ppitchMany : Nat → List Char → List pitch × List Char
  | 0, s => ([], s)
  | f + 1, s =>
    match ppitch s with
    | none => ([], s)
    | some (p, s1) =>
      let r := ppitchMany f s1
      (p :: r.1, r.2)

/-- The `pchord` rule (grammar source line 354): angle brackets around one
or more pitches, then a value, building `stan::chord`. -/
def pchord (s : List Char) : Option (value × List pitch × List Char) :=
  match matchChar '<' s with
  | none => none
  | some s1 =>
    match ppitch s1 with
    | none => none
    | some (p, s2) =>
      let r := ppitchMany s2.length s2
      match matchChar '>' r.2 with
      | none => none
      | some s3 =>
        match pvalue s3 with
        | none => none
        | some (v, s4) => some (v, p :: r.1, s4)

/-- Result of a PEG rule: a soft failure (the alternative backtracks), a
thrown validation exception (aborts the whole parse, as a C++ exception
thrown from a semantic action does), or a parsed attribute with the
remaining input. -/
inductive pres (α : Type) where
  | fail
  | thrown (msg : String)
  | ok (a : α) (rest : List Char)

/-- One fuel level of the mutually recursive grammar rules: the first
component is the `column` rule (grammar source line 356, ordered
alternatives rest, note, chord, beam, with the `pbeam` rule of line 355
inlined as the last alternative), the second is the `+column` loop inside
`pbeam`.  The recursion is structural on the fuel, which only bounds the
recursion depth; `beam::validate` runs in the `construct<beam>` semantic
action before the closing bracket is matched, and a violation escapes as a
thrown `invalid_beam` exception. -/
def pstep : Nat → ((List Char → pres column) × (List Char → pres (List column)))
  | 0 => (fun _ => .fail, fun _ => .fail)
  | f + 1 =>
    (fun s =>
      match prest s with
      | some (v, r) => .ok (column.rest v) r
      | none =>
        match pnote s with
        | some (v, p, r) => .ok (column.note v p) r
        | none =>
          match pchord s with
          | some (v, ps, r) => .ok (column.chord v ps) r
          | none =>
            match matchChar '[' s with
            | none => .fail
            | some s1 =>
              match (pstep f).2 s1 with
              | .fail => .fail
              | .thrown m => .thrown m
              | .ok es s2 =>
                match beam.validateMsg es with
                | some m => .thrown m
                | none =>
                  match matchChar ']' s2 with
                  | none => .fail
                  | some s3 => .ok (column.beam es) s3,
     fun s =>
      match (pstep f).1 s with
      | .fail => .fail
      | .thrown m => .thrown m
      | .ok c s1 =>
        match (pstep f).2 s1 with
        | .ok cs s2 => .ok (c :: cs) s2
        | .fail => .ok [c] s1
        | .thrown m => .thrown m)

/-- The `column` rule at a given fuel. -/
def pcolumn (f : Nat) (s : List Char) : pres column := (pstep f).1 s

/-- The `+column` loop at a given fuel. -/
def pcolumnPlus (f : Nat) (s : List Char) : pres (List column) := (pstep f).2 s

/-- The distinguishable failures of `stan::lilypond::parse` (grammar source
lines 397-436): a failed grammar match ("parse error"), trailing unconsumed
input after post-skipping ("incomplete parse"), or a validation exception
escaping a semantic action. -/
inductive perr where
  | noMatch
  | trailing
  | invalidBeam (msg : String)
deriving DecidableEq

/-- `stan::lilypond::parse` (grammar source lines 397-436): run the column
rule under the whitespace skipper; a failed match is an error, and any
input left after skipping trailing whitespace is an error. -/
def parse (s : List Char) : Except perr column :=
  match pcolumn (3 * s.length + 3) s with
  | .fail => .error perr.noMatch
  | .thrown m => .error (perr.invalidBeam m)
  | .ok c r =>
    match skipWs r with
    | [] => .ok c
    | _ :: _ => .error perr.trailing

/-- Modelled from the spec: the `pitchclass_names` strings used by the debug
writer (debug.hpp is not under src/) are the same 35 spellings as the parse
symbol table (section 4.2). -/
def pitchclass_names (pc : pitchclass) : List Char :=
  ((pitchclass_table.find? (fun kv => decide (kv.2 = pc))).map (fun kv => kv.1)).getD []

/-- `writer::operator()(value)` (debug_writer.cpp line 23): the undotted
base denominator followed by the dot marks. -/
def write_value (v : value) : List Char :=
  Nat.toDigits 10 (v.den / 2 ^ v.dots) ++ List.replicate v.dots '.'

/-- `writer::operator()(pitch)` (debug_writer.cpp lines 16-21): the
pitch-class spelling followed by the octave number. -/
def write_pitch (p : pitch) : List Char :=
  pitchclass_names p.m_pitchclass ++ Nat.toDigits 10 p.m_octave

/-- Join rendered fragments with single spaces (debug_writer.cpp builds
them with a trailing space and then drops it). -/
def joinSpace : List (List Char) → List Char
  | [] => []
  | [x] => x
  | x :: y :: xs => x ++ ' ' :: joinSpace (y :: xs)

mutual

/-- `writer::operator()` over a column (debug_writer.cpp lines 33-93):
rest as r:value, note as pitch:value, chord as angle-bracketed pitches then
:value, beam as bracketed space-separated elements, tuplet as value:braced
elements. -/
def write : column → List Char
  | .rest v => 'r' :: ':' :: write_value v
  | .note v p => write_pitch p ++ ':' :: write_value v
  | .chord v ps => '<' :: (joinSpace (ps.map write_pitch) ++ '>' :: ':' :: write_value v)
  | .beam es => '[' :: (write_elements es ++ [']'])
  | .tuplet v es =>
    write_value v ++ ':' :: Char.ofNat 123 :: (write_elements es ++ [Char.ofNat 125, ']'])
termination_by c => sizeOf c

/-- The rendered element sequence of a beam or tuplet, space separated
(debug_writer.cpp builds it with a trailing space and then drops it). -/
def write_elements : List column → List Char
  | [] => []
  | [c] => write c
  | c :: c' :: cs => write c ++ ' ' :: write_elements (c' :: cs)
termination_by cs => sizeOf cs

end

/-- The input text "c4 d4" of the full-consumption check. -/
def inputC4D4 : List Char := ['c', '4', ' ', 'd', '4']

/-- The input text "r4". -/
def inputR4 : List Char := ['r', '4']

/-- The input text "c'4" (apostrophe raise mark). -/
def inputCRaise4 : List Char := ['c', quoteChar, '4']

/-- The input text "<c e g>4". -/
def inputChord : List Char := ['<', 'c', ' ', 'e', ' ', 'g', '>', '4']

/-- The input text "[c8 d8]". -/
def inputBeam : List Char := ['[', 'c', '8', ' ', 'd', '8', ']']

/-- An unmatchable input text "x". -/
def inputX : List Char := ['x']

/-- The column parsed from "<c e g>4". -/
def chordCol : column :=
  column.chord value.quarter [⟨pitchclass.c, 4⟩, ⟨pitchclass.e, 4⟩, ⟨pitchclass.g, 4⟩]

/-- The column parsed from "[c8 d8]". -/
def beamCol : column :=
  column.beam [column.note value.eighth ⟨pitchclass.c, 4⟩, column.note value.eighth ⟨pitchclass.d, 4⟩]

mutual

/-- No tuplet node occurs anywhere in the column tree. -/
def tfree : column → Bool
  | .rest _ => true
  | .note _ _ => true
  | .chord _ _ => true
  | .beam es => tfreeList es
  | .tuplet _ _ => false
termination_by c => sizeOf c

/-- `tfree` over an element sequence. -/
def tfreeList : List column → Bool
  | [] => true
  | c :: cs => tfree c && tfreeList cs
termination_by cs => sizeOf cs

end

/- ------------------------------------------------------------------ -/
/- Theorems. -/
/- ------------------------------------------------------------------ -/

/-- `List.findSome?` returns `none` exactly when the function returns `none`
on every element. -/
theorem findSome_none_iff {α β : Type} (f : α → Option β) :
    ∀ l : List α, (l.findSome? f = none ↔ ∀ x ∈ l, f x = none) := by
  intro l
  induction l with
  | nil => simp [List.findSome?]
  | cons a l ih =>
    simp only [List.findSome?]
    cases h : f a with
    | some b => simp [h]
    | none => simp [h, ih]

/-- `List.findSome?` returns `some b` exactly when some element maps to
`some b` and every earlier element maps to `none`. -/
theorem findSome_some_iff {α β : Type} (f : α → Option β) (b : β) :
    ∀ l : List α, (l.findSome? f = some b ↔
      ∃ l1 a l2, l = l1 ++ a :: l2 ∧ (∀ x ∈ l1, f x = none) ∧ f a = some b) := by
  intro l
  induction l with
  | nil => simp [List.findSome?]
  | cons a l ih =>
    simp only [List.findSome?]
    cases h : f a with
    | some c =>
      constructor
      · intro hc
        exact ⟨[], a, l, rfl, by simp, by rw [h]; exact hc⟩
      · rintro ⟨l1, x, l2, hdec, hnone, hx⟩
        cases l1 with
        | nil =>
          simp only [List.nil_append, List.cons.injEq] at hdec
          obtain ⟨rfl, rfl⟩ := hdec
          rw [← h, hx]
        | cons y l1 =>
          simp only [List.cons_append, List.cons.injEq] at hdec
          obtain ⟨rfl, _⟩ := hdec
          have hn : f a = none := hnone a (by simp)
          rw [hn] at h
          cases h
    | none =>
      rw [ih]
      constructor
      · rintro ⟨l1, x, l2, rfl, hnone, hx⟩
        exact ⟨a :: l1, x, l2, rfl, by
          intro y hy
          rcases List.mem_cons.mp hy with hy | hy
          · rw [hy]; exact h
          · exact hnone y hy, hx⟩
      · rintro ⟨l1, x, l2, hdec, hnone, hx⟩
        cases l1 with
        | nil =>
          simp only [List.nil_append, List.cons.injEq] at hdec
          obtain ⟨rfl, rfl⟩ := hdec
          rw [h] at hx
          cases hx
        | cons y l1 =>
          simp only [List.cons_append, List.cons.injEq] at hdec
          obtain ⟨rfl, rfl⟩ := hdec
          exact ⟨l1, x, l2, rfl, fun z hz => hnone z (by simp [hz]), hx⟩

/-- `List.find?` returns `some b` exactly when `b` is the first element
satisfying the predicate. -/
theorem find_some_iff {α : Type} (p : α → Bool) (b : α) :
    ∀ l : List α, (l.find? p = some b ↔
      ∃ l1 l2, l = l1 ++ b :: l2 ∧ (∀ x ∈ l1, p x = false) ∧ p b = true) := by
  intro l
  induction l with
  | nil => simp [List.find?]
  | cons a l ih =>
    cases h : p a with
    | true =>
      rw [List.find?_cons_of_pos _ h]
      constructor
      · intro hc
        obtain rfl : a = b := by injection hc
        exact ⟨[], l, rfl, by simp, h⟩
      · rintro ⟨l1, l2, hdec, hnone, hb⟩
        cases l1 with
        | nil =>
          simp only [List.nil_append, List.cons.injEq] at hdec
          obtain ⟨rfl, rfl⟩ := hdec
          rfl
        | cons y l1 =>
          simp only [List.cons_append, List.cons.injEq] at hdec
          obtain ⟨rfl, _⟩ := hdec
          have hn : p a = false := hnone a (by simp)
          rw [hn] at h
          cases h
    | false =>
      rw [List.find?_cons_of_neg _ (by simp [h])]
      rw [ih]
      constructor
      · rintro ⟨l1, l2, rfl, hnone, hb⟩
        exact ⟨a :: l1, l2, rfl, by
          intro y hy
          rcases List.mem_cons.mp hy with hy | hy
          · rw [hy]; exact h
          · exact hnone y hy, hb⟩
      · rintro ⟨l1, l2, hdec, hnone, hb⟩
        cases l1 with
        | nil =>
          simp only [List.nil_append, List.cons.injEq] at hdec
          obtain ⟨rfl, rfl⟩ := hdec
          rw [h] at hb
          cases hb
        | cons y l1 =>
          simp only [List.cons_append, List.cons.injEq] at hdec
          obtain ⟨rfl, rfl⟩ := hdec
          exact ⟨l1, l2, rfl, fun z hz => hnone z (by simp [hz]), hb⟩

/-- C8: Tuplet validation fails with an `invalid_value` error (never
`invalid_tuplet`) exactly when the element sequence has fewer than two
elements, and passes otherwise. -/
theorem tuplet_validate_min_elements :
    ∀ es : List column,
      (tuplet.validate es = none ↔ 2 ≤ es.length)
    ∧ (∀ e : err, tuplet.validate es = some e ↔
        es.length < 2 ∧ e = err.invalid_value ("tuplet must contain at least two elements")) := by
  intro es
  constructor
  · simp only [tuplet.validate]
    split
    next h => simp; omega
    next h => simp; omega
  · intro e
    simp only [tuplet.validate]
    split
    next h => simp [h, eq_comm]
    next h => simp [h]

/-- C8 witness: a one-element tuplet fails with exactly the
`invalid_value` error, obtained by instantiating the characterisation. -/
theorem tuplet_validate_min_elements_witness :
    tuplet.validate [column.rest value.quarter]
      = some (err.invalid_value ("tuplet must contain at least two elements")) :=
  ((tuplet_validate_min_elements [column.rest value.quarter]).2 _).mpr ⟨by simp, rfl⟩

/-- C9: `duration::operator+` fails precisely on a zero operand denominator
(the assert on the right operand, the division by the left denominator);
under the invariant that both denominators are positive neither denominator
failure can occur and both internal divisions are by nonzero numbers. -/
theorem duration_add_den_preconditions :
    (∀ a b : duration,
      (a.den = 0 ∨ b.den = 0) ↔
        (duration.addChecked a b = addResult.assertFail
          ∨ duration.addChecked a b = addResult.divByZero))
  ∧ (∀ a b : duration, 0 < a.den → 0 < b.den →
      duration.addChecked a b ≠ addResult.assertFail
      ∧ duration.addChecked a b ≠ addResult.divByZero
      ∧ a.den ≠ 0 ∧ b.den ≠ 0) := by
  constructor
  · intro a b
    simp only [duration.addChecked]
    constructor
    · rintro (h | h)
      · rw [h]
        by_cases hb : b.den = 0
        · simp [hb]
        · simp [hb]
      · simp [h]
    · by_cases hb : b.den = 0
      · intro _; right; exact hb
      · by_cases ha : a.den = 0
        · intro _; left; exact ha
        · simp only [hb, ha, if_false]
          split
          · rintro (h | h) <;> cases h
          · rintro (h | h) <;> cases h
  · intro a b ha hb
    have ha' : a.den ≠ 0 := Nat.pos_iff_ne_zero.mp ha
    have hb' : b.den ≠ 0 := Nat.pos_iff_ne_zero.mp hb
    refine ⟨?_, ?_, ha', hb'⟩
    · simp only [duration.addChecked, hb', ha', if_false]
      split <;> simp
    · simp only [duration.addChecked, hb', ha', if_false]
      split <;> simp

/-- C9 witness: 1/2 + 1/3 with positive denominators avoids both
denominator-failure branches. -/
theorem duration_add_den_preconditions_witness :
    duration.addChecked ⟨1, 2⟩ ⟨1, 3⟩ ≠ addResult.assertFail
    ∧ duration.addChecked ⟨1, 2⟩ ⟨1, 3⟩ ≠ addResult.divByZero
    ∧ (⟨1, 2⟩ : duration).den ≠ 0 ∧ (⟨1, 3⟩ : duration).den ≠ 0 :=
  duration_add_den_preconditions.2 ⟨1, 2⟩ ⟨1, 3⟩ (by decide) (by decide)

/-- C3 counterexample: with the wrapping 32-bit arithmetic of the source,
adding 1/65537 and 1/65536 overflows (65537 * 65536 wraps to 65536) and the
computed sum 1/65536 fails the exact cross-multiplied sum identity. -/
theorem duration_add_overflow_counterexample :
    ¬ ((duration.add ⟨1, 65537⟩ ⟨1, 65536⟩).num * 65537 * 65536
        = (1 * 65536 + 1 * 65537) * (duration.add ⟨1, 65537⟩ ⟨1, 65536⟩).den) := by
  decide

/-- C3 amended: Duration addition follows the gcd common-denominator
algorithm exactly, and whenever no intermediate product wraps past 2^32
(the common denominator d = den1*den2/gcd, the scaled numerators num*d, and
their sum all below 2^32) the result is the exact rational sum:
sum.num * den1 * den2 = (num1*den2 + num2*den1) * sum.den. -/
theorem duration_add_exact_sum (n1 d1 n2 d2 : Nat) (h1 : 0 < d1) (h2 : 0 < d2)
    (hd : d1 * d2 < W32)
    (ha : n1 * (d1 * d2 / Nat.gcd d1 d2) < W32)
    (hb : n2 * (d1 * d2 / Nat.gcd d1 d2) < W32)
    (hs : n1 * (d1 * d2 / Nat.gcd d1 d2) / d1 + n2 * (d1 * d2 / Nat.gcd d1 d2) / d2 < W32) :
    (duration.add ⟨n1, d1⟩ ⟨n2, d2⟩).num * d1 * d2
      = (n1 * d2 + n2 * d1) * (duration.add ⟨n1, d1⟩ ⟨n2, d2⟩).den := by
  obtain ⟨a, hA⟩ := Nat.gcd_dvd_left d1 d2
  obtain ⟨b, hB⟩ := Nat.gcd_dvd_right d1 d2
  have hg : 0 < Nat.gcd d1 d2 := Nat.gcd_pos_of_pos_left d2 h1
  set g := Nat.gcd d1 d2 with hgdef
  have hDeq : d1 * d2 / g = d1 * b := by
    rw [show d1 * d2 = g * (d1 * b) by rw [hB]; ring]
    exact Nat.mul_div_cancel_left _ hg
  have hDeq' : d1 * d2 / g = a * d2 := by
    rw [show d1 * d2 = g * (a * d2) by rw [hA]; ring]
    exact Nat.mul_div_cancel_left _ hg
  simp only [duration.add]
  rw [Nat.mod_eq_of_lt hd]
  rw [Nat.mod_eq_of_lt ha, Nat.mod_eq_of_lt hb]
  have hq1 : n1 * (d1 * d2 / g) / d1 = n1 * b := by
    rw [hDeq, show n1 * (d1 * b) = d1 * (n1 * b) by ring]
    exact Nat.mul_div_cancel_left _ h1
  have hq2 : n2 * (d1 * d2 / g) / d2 = n2 * a := by
    rw [hDeq', show n2 * (a * d2) = d2 * (n2 * a) by ring]
    exact Nat.mul_div_cancel_left _ h2
  rw [Nat.mod_eq_of_lt hs]
  rw [hq1, hq2, hDeq, hA, hB]
  ring

/-- C3 amended witness: 1/2 + 1/3 stays below every 32-bit bound and the
computed sum 5/6 satisfies the exact-sum identity. -/
theorem duration_add_exact_sum_witness :
    (duration.add ⟨1, 2⟩ ⟨1, 3⟩).num * 2 * 3
      = (1 * 3 + 1 * 2) * (duration.add ⟨1, 2⟩ ⟨1, 3⟩).den :=
  duration_add_exact_sum 1 2 1 3 (by decide) (by decide) (by decide) (by decide)
    (by decide) (by decide)

/-- The accumulate loop of `get_duration` is the left fold of duration
addition over the member durations. -/
theorem accumulate_duration_eq_foldl (es : List column) :
    ∀ acc, accumulate_duration acc es = (es.map get_duration).foldl duration.add acc := by
  induction es with
  | nil => intro acc; simp [accumulate_duration]
  | cons c cs ih =>
    intro acc
    simp only [accumulate_duration, List.map_cons, List.foldl_cons]
    exact ih _

/-- C10: the duration assigned to a column is its own stored value's
duration for rest, note, chord and tuplet, and for a beam the left fold of
exact duration addition, starting from zero, over the durations of its
children — the beam's duration is the sum of its children's durations. -/
theorem get_duration_characterisation :
    (∀ v, get_duration (column.rest v) = v.toDuration)
  ∧ (∀ v p, get_duration (column.note v p) = v.toDuration)
  ∧ (∀ v ps, get_duration (column.chord v ps) = v.toDuration)
  ∧ (∀ v es, get_duration (column.tuplet v es) = v.toDuration)
  ∧ (∀ es, get_duration (column.beam es)
      = (es.map get_duration).foldl duration.add duration.zero) := by
  refine ⟨?_, ?_, ?_, ?_, ?_⟩
  · intro v; simp [get_duration]
  · intro v p; simp [get_duration]
  · intro v ps; simp [get_duration]
  · intro v es; simp [get_duration]
  · intro es
    simp only [get_duration]
    exact accumulate_duration_eq_foldl es duration.zero

mutual

/-- Deep copy is the identity up to structural equality. -/
theorem copy_variant_id : ∀ c : column, copy_variant c = c
  | .rest v => by simp [copy_variant]
  | .note v p => by simp [copy_variant]
  | .chord v ps => by simp [copy_variant]
  | .beam es => by rw [copy_variant, copy_elements_id es]
  | .tuplet v es => by rw [copy_variant, copy_elements_id es]
termination_by c => sizeOf c

/-- Deep copy of an element sequence is the identity up to structural
equality. -/
theorem copy_elements_id : ∀ es : List column, copy_elements es = es
  | [] => by rw [copy_elements]
  | c :: cs => by rw [copy_elements, copy_variant_id c, copy_elements_id cs]
termination_by es => sizeOf es

end

/-- C7: deep copy maps every column to a structurally equal column; beams
and tuplets are rebuilt from a freshly copied element sequence with the
same value metadata; and substituting a child of the copied sequence leaves
every other position equal to the original's corresponding child. -/
theorem copy_deep_independent :
    (∀ c : column, copy_variant c = c)
  ∧ (∀ es : List column, copy_variant (column.beam es) = column.beam (copy_elements es))
  ∧ (∀ (v : value) (es : List column),
      copy_variant (column.tuplet v es) = column.tuplet v (copy_elements es))
  ∧ (∀ (es : List column) (i : Nat) (x : column) (j : Nat), j ≠ i →
      ((copy_elements es).set i x).get? j = es.get? j) := by
  refine ⟨copy_variant_id, ?_, ?_, ?_⟩
  · intro es; rw [copy_variant]
  · intro v es; rw [copy_variant]
  · intro es i x j hj
    rw [copy_elements_id es, List.get?_set_ne]
    omega

/-- C7 witness: substituting position 0 of the copy of a one-element beam
sequence leaves position 1 (and the original) untouched. -/
theorem copy_deep_independent_witness :
    ((copy_elements [column.rest value.quarter]).set 0 (column.rest value.half)).get? 1
      = [column.rest value.quarter].get? 1 :=
  copy_deep_independent.2.2.2 [column.rest value.quarter] 0 (column.rest value.half) 1
    (by decide)

/-- The per-member check of `beam::validate` accepts a member exactly when
the spec-side membership rule holds. -/
theorem is_valid_none_iff (n : Nat) (c : column) :
    is_valid n c = none ↔ beam_member_ok_spec n c := by
  cases c with
  | rest v => simp [is_valid, beam_member_ok_spec]
  | note v p =>
    simp only [is_valid, beam_member_ok_spec]
    by_cases h : value.gtQuarter v
    · simp [h]
    · simp only [h, if_false]
      by_cases hn : n < 2
      · simp [hn]
      · simp [hn]
        omega
  | chord v ps =>
    simp only [is_valid, beam_member_ok_spec]
    by_cases h : value.gtQuarter v
    · simp [h]
    · simp only [h, if_false]
      by_cases hn : n < 2
      · simp [hn]
      · simp [hn]
        omega
  | beam es =>
    simp only [is_valid, beam_member_ok_spec]
    by_cases hn : n < 2
    · simp [hn]
    · simp [hn]
      omega
  | tuplet v es =>
    simp only [is_valid, beam_member_ok_spec]
    by_cases h : value.gtQuarter v
    · simp [h]
    · simp [h]

/-- C1: `beam::validate` succeeds exactly when every member obeys the
membership rules (no rests; notes and chords need value at most a quarter
and at least two total members; nested beams need at least two total
members; tuplets need value at most a quarter), and otherwise it raises an
`invalid_beam` error carrying precisely the message of the first violating
member in order, aggregating nothing. -/
theorem beam_validate_first_violation :
    (∀ (n : Nat) (c : column), is_valid n c = none ↔ beam_member_ok_spec n c)
  ∧ (∀ es : List column,
      beam.validate es = none ↔ ∀ c ∈ es, beam_member_ok_spec es.length c)
  ∧ (∀ (es : List column) (e : err),
      beam.validate es = some e ↔
        ∃ m l1 c l2, e = err.invalid_beam m ∧ es = l1 ++ c :: l2
          ∧ (∀ x ∈ l1, is_valid es.length x = none)
          ∧ is_valid es.length c = some m) := by
  refine ⟨is_valid_none_iff, ?_, ?_⟩
  · intro es
    simp only [beam.validate, beam.validateMsg, Option.map_eq_none']
    rw [findSome_none_iff]
    constructor
    · intro h c hc
      exact (is_valid_none_iff es.length c).mp (h c hc)
    · intro h c hc
      exact (is_valid_none_iff es.length c).mpr (h c hc)
  · intro es e
    simp only [beam.validate, beam.validateMsg, Option.map_eq_some']
    constructor
    · rintro ⟨m, hfind, rfl⟩
      obtain ⟨l1, c, l2, hdec, hnone, hc⟩ := (findSome_some_iff _ m es).mp hfind
      exact ⟨m, l1, c, l2, rfl, hdec, hnone, hc⟩
    · rintro ⟨m, l1, c, l2, rfl, hdec, hnone, hc⟩
      exact ⟨m, (findSome_some_iff _ m es).mpr ⟨l1, c, l2, hdec, hnone, hc⟩, rfl⟩

/-- C1 witness: a beam holding a rest and a note fails with exactly the
first violation's message, obtained by instantiating the characterisation
at that concrete beam. -/
theorem beam_validate_first_violation_witness :
    beam.validate [column.rest value.eighth, column.note value.eighth ⟨pitchclass.c, 4⟩]
      = some (err.invalid_beam ("cannot contain rests")) :=
  (beam_validate_first_violation.2.2
      [column.rest value.eighth, column.note value.eighth ⟨pitchclass.c, 4⟩] _).mpr
    ⟨"cannot contain rests", [], column.rest value.eighth,
      [column.note value.eighth ⟨pitchclass.c, 4⟩], rfl, rfl, by simp, rfl⟩

/-- C2 counterexample: `scale(3, 2, eighth)` does not return the quarter
value: the computed outer duration is 2/24 = 1/12, which matches no entry
of `value::all`, so the call fails with `invalid_tuplet`. -/
theorem tuplet_scale_triplet_eighth_counterexample :
    tuplet.scaleValue 3 2 value.eighth = scaleResult.invalidTuplet
    ∧ ¬ (tuplet.scaleValue 3 2 value.eighth = scaleResult.ok value.quarter) :=
  ⟨rfl, by decide⟩

/-- C2 amended: `tuplet::scale` cross-multiplies the ratio into the inner
duration; when the outer denominator `inner.den*num` is zero in the
wrapping 32-bit arithmetic the duration constructor fails before any scan,
and otherwise the scan returns the first entry of `value::all` whose
converted duration equals the outer duration exactly, failing with
`invalid_tuplet` when no entry matches; in particular `scale(3,2, eighth)`
fails with `invalid_tuplet` (a lone eighth under 3:2 gives 1/12), while
the triplet's total inner duration 3/8 under 3:2 yields the quarter, and
`scale(5,4, quarter)` fails with `invalid_tuplet`. -/
theorem tuplet_scale_first_exact_match :
    (∀ (nu de : Nat) (i : duration), i.den * nu % W32 = 0 →
      tuplet.scale nu de i = scaleResult.ctorFail)
  ∧ (∀ (nu de : Nat) (i : duration) (v : value), i.den * nu % W32 ≠ 0 →
      (tuplet.scale nu de i = scaleResult.ok v ↔
        ∃ l1 l2, value.all = l1 ++ v :: l2
          ∧ (∀ w ∈ l1, duration.eqb (outer_duration nu de i) w.toDuration = false)
          ∧ duration.eqb (outer_duration nu de i) v.toDuration = true))
  ∧ (∀ (nu de : Nat) (i : duration), i.den * nu % W32 ≠ 0 →
      (tuplet.scale nu de i = scaleResult.invalidTuplet ↔
        ∀ w ∈ value.all, duration.eqb (outer_duration nu de i) w.toDuration = false))
  ∧ tuplet.scaleValue 3 2 value.eighth = scaleResult.invalidTuplet
  ∧ tuplet.scale 3 2 ⟨3, 8⟩ = scaleResult.ok value.quarter
  ∧ tuplet.scaleValue 5 4 value.quarter = scaleResult.invalidTuplet := by
  refine ⟨?_, ?_, ?_, rfl, rfl, rfl⟩
  · intro nu de i h
    simp only [tuplet.scale]
    rw [if_pos h]
  · intro nu de i v h
    simp only [tuplet.scale]
    rw [if_neg h]
    cases hf : value.all.find? (fun w => duration.eqb (outer_duration nu de i) w.toDuration) with
    | some w =>
      have := (find_some_iff _ w value.all).mp hf
      constructor
      · intro h
        obtain rfl : w = v := by injection h
        exact this
      · intro h
        obtain ⟨l1, l2, hdec, hnone, hv⟩ := h
        have hv' := (find_some_iff _ v value.all).mpr ⟨l1, l2, hdec, hnone, hv⟩
        rw [hf] at hv'
        obtain rfl : w = v := by injection hv'
        rfl
    | none =>
      constructor
      · intro h; cases h
      · intro h
        obtain ⟨l1, l2, hdec, hnone, hv⟩ := h
        have hv' := (find_some_iff _ v value.all).mpr ⟨l1, l2, hdec, hnone, hv⟩
        rw [hf] at hv'
        cases hv'
  · intro nu de i h
    simp only [tuplet.scale]
    rw [if_neg h]
    cases hf : value.all.find? (fun w => duration.eqb (outer_duration nu de i) w.toDuration) with
    | some w =>
      constructor
      · intro h'; cases h'
      · intro h'
        have hw := List.find?_some hf
        have hmem := List.mem_of_find?_eq_some hf
        rw [h' w hmem] at hw
        cases hw
    | none =>
      constructor
      · intro _ w hw
        have := List.find?_eq_none.mp hf w hw
        simpa using this
      · intro _; rfl

/-- C2 witness: instantiating the no-match characterisation at ratio 5:4
on a quarter (whose outer denominator 20 is nonzero) recovers the concrete
`invalid_tuplet` failure. -/
theorem tuplet_scale_first_exact_match_witness :
    tuplet.scale 5 4 ⟨1, 4⟩ = scaleResult.invalidTuplet :=
  (tuplet_scale_first_exact_match.2.2.1 5 4 ⟨1, 4⟩ (by decide)).mpr (by decide)

/-- Every column or column sequence produced by the grammar rules satisfies
the construction-time invariants and contains no tuplet node. -/
theorem pstep_sound : ∀ f : Nat,
    (∀ s c r, (pstep f).1 s = pres.ok c r → columnValid c = true ∧ tfree c = true)
  ∧ (∀ s cs r, (pstep f).2 s = pres.ok cs r → columnsValid cs = true ∧ tfreeList cs = true) := by
  intro f
  induction f with
  | zero =>
    refine ⟨fun s c r h => ?_, fun s cs r h => ?_⟩ <;> simp [pstep] at h
  | succ f ih =>
    obtain ⟨ihc, ihp⟩ := ih
    refine ⟨fun s c r h => ?_, fun s cs r h => ?_⟩
    · simp only [pstep] at h
      split at h
      · cases h; simp [columnValid, tfree]
      · split at h
        · cases h; simp [columnValid, tfree]
        · split at h
          · cases h; simp [columnValid, tfree]
          · split at h
            · simp at h
            · split at h
              · simp at h
              · simp at h
              · rename_i es s2 hplus
                split at h
                · simp at h
                · rename_i hmsg
                  split at h
                  · simp at h
                  · cases h
                    obtain ⟨h1, h2⟩ := ihp _ _ _ hplus
                    constructor
                    · simp [columnValid, hmsg, h1]
                    · simp [tfree, h2]
    · simp only [pstep] at h
      split at h
      · simp at h
      · simp at h
      · rename_i c1 s1 hcol
        split at h
        · rename_i cs2 s2 hplus
          cases h
          obtain ⟨a1, a2⟩ := ihc _ _ _ hcol
          obtain ⟨b1, b2⟩ := ihp _ _ _ hplus
          constructor
          · simp [columnsValid, a1, b1]
          · simp [tfreeList, a2, b2]
        · cases h
          obtain ⟨a1, a2⟩ := ihc _ _ _ hcol
          constructor
          · simp [columnsValid, a1]
          · simp [tfreeList, a2]
        · simp at h

/-- C4: every input either parses to a fully validated column or fails; the
grammar no-match failure and the trailing-input failure are distinct
errors, and "c4 d4" fails with the trailing-input error while "x" fails
with the no-match error. -/
theorem parse_full_consumption_and_validation :
    (∀ (s : List Char) (c : column), parse s = Except.ok c → columnValid c = true)
  ∧ parse inputC4D4 = Except.error perr.trailing
  ∧ parse inputX = Except.error perr.noMatch
  ∧ perr.noMatch ≠ perr.trailing := by
  refine ⟨?_, rfl, rfl, by decide⟩
  intro s c h
  simp only [parse, pcolumn] at h
  split at h
  · simp at h
  · simp at h
  · rename_i c1 r1 hcol
    split at h
    · cases h
      exact ((pstep_sound (3 * s.length + 3)).1 _ _ _ hcol).1
    · simp at h

/-- C4 witness: "r4" parses, and the parsed rest column is fully valid. -/
theorem parse_full_consumption_and_validation_witness :
    columnValid (column.rest value.quarter) = true :=
  parse_full_consumption_and_validation.1 inputR4 (column.rest value.quarter) rfl

/-- C6: no input string ever parses to a column containing a tuplet node:
the active grammar only exposes the rest, note, chord and beam
alternatives, so tuplets are reachable only by direct construction. -/
theorem parse_never_tuplet :
    ∀ (s : List Char) (c : column), parse s = Except.ok c → tfree c = true := by
  intro s c h
  simp only [parse, pcolumn] at h
  split at h
  · simp at h
  · simp at h
  · rename_i c1 r1 hcol
    split at h
    · cases h
      exact ((pstep_sound (3 * s.length + 3)).1 _ _ _ hcol).2
    · simp at h

/-- C6 witness: "[c8 d8]" parses to a beam that contains no tuplet. -/
theorem parse_never_tuplet_witness : tfree beamCol = true :=
  parse_never_tuplet inputBeam beamCol rfl

/-- C5 counterexample: "r4" parses, but re-parsing its formatted rendering
"r:4" fails with a no-match error instead of reproducing a structurally
equal column. -/
theorem parse_write_roundtrip_counterexample :
    parse inputR4 = Except.ok (column.rest value.quarter)
    ∧ write (column.rest value.quarter) = ['r', ':', '4']
    ∧ parse ['r', ':', '4'] = Except.error perr.noMatch := by
  refine ⟨rfl, ?_, rfl⟩
  simp only [write]
  rfl

/-- C5 amended: the debug formatter is not a parsing inverse: each of the
grammar's example literals parses, but the formatted rendering (with its
colon separators and numeric octave suffixes) is rejected on re-parse —
with a no-match error for "r4", "c'4" and "<c e g>4", and with a thrown
`invalid_beam` for "[c8 d8]", whose rendering re-parses as a one-member
beam candidate that trips beam validation. -/
theorem write_not_inverse_of_parse :
    (parse inputR4 = Except.ok (column.rest value.quarter)
      ∧ parse (write (column.rest value.quarter)) = Except.error perr.noMatch)
  ∧ (parse inputCRaise4 = Except.ok (column.note value.quarter ⟨pitchclass.c, 5⟩)
      ∧ parse (write (column.note value.quarter ⟨pitchclass.c, 5⟩))
          = Except.error perr.noMatch)
  ∧ (parse inputChord = Except.ok chordCol
      ∧ parse (write chordCol) = Except.error perr.noMatch)
  ∧ (parse inputBeam = Except.ok beamCol
      ∧ parse (write beamCol)
          = Except.error (perr.invalidBeam ("must contain at least two values"))) := by
  refine ⟨⟨rfl, ?_⟩, ⟨rfl, ?_⟩, ⟨rfl, ?_⟩, ⟨rfl, ?_⟩⟩
  · simp only [write]; rfl
  · simp only [write]; rfl
  · simp only [chordCol, write]; rfl
  · simp only [beamCol, write, write_elements]; rfl

end stan
